import Mathlib

/-!
Verification of the tic-tac-toe decision engine of tic_tac_toe.py:
the board model, win detection, minimax with alpha-beta pruning, best_move,
the ai_move fallback chain, and the opening-book loading.

Recursive search functions are embedded with an explicit fuel argument
(the board has at most 9 empty cells, so fuel 10 always suffices; the
wrappers minimax and minimaxPlain fix fuel = 10).  The mutating versions
(minimaxS, best_moveS) thread the board state explicitly so that the
restore-after-trial behaviour of the source is a provable property rather
than an assumption.
-/

/-- A cell of the 3x3 board: the source uses the strings X, O and a blank. -/
inductive Cell
  | X
  | O
  | E
deriving DecidableEq

/-- The 3x3 board (a list of three lists of three cells in the source). -/
abbrev Board := Fin 3 → Fin 3 → Cell

/-- A (row, column) move. -/
abbrev Move := Fin 3 × Fin 3

/-- Writing symbol s into cell (i, j): models the assignment board[i][j] = s. -/
def place (b : Board) (i j : Fin 3) (s : Cell) : Board :=
  fun r c => if r = i ∧ c = j then s else b r c

/-- All nine cells in row-major order (for i in range(3) for j in range(3)). -/
def allCells : List Move :=
  [(0, 0), (0, 1), (0, 2), (1, 0), (1, 1), (1, 2), (2, 0), (2, 1), (2, 2)]

/-- The eight winning lines: three rows, three columns, two diagonals.  The
source repeats the identical table inside no_possible_win and check_win. -/
def win_cond : List (Move × Move × Move) :=
  [((0, 0), (0, 1), (0, 2)), ((1, 0), (1, 1), (1, 2)), ((2, 0), (2, 1), (2, 2)),
   ((0, 0), (1, 0), (2, 0)), ((0, 1), (1, 1), (2, 1)), ((0, 2), (1, 2), (2, 2)),
   ((0, 0), (1, 1), (2, 2)), ((0, 2), (1, 1), (2, 0))]

/-- no_possible_win(board): true when every winning line already contains both
an X and an O, so that no line can ever be completed. -/
def no_possible_win (b : Board) : Bool :=
  win_cond.all fun t =>
    decide (Cell.X ∈ [b t.1.1 t.1.2, b t.2.1.1 t.2.1.2, b t.2.2.1 t.2.2.2]) &&
    decide (Cell.O ∈ [b t.1.1 t.1.2, b t.2.1.1 t.2.1.2, b t.2.2.1 t.2.2.2])

/-- check_win(board, player): some line has all three cells equal to player. -/
def check_win (b : Board) (p : Cell) : Bool :=
  win_cond.any fun t =>
    decide (b t.1.1 t.1.2 = b t.2.1.1 t.2.1.2 ∧
      b t.2.1.1 t.2.1.2 = b t.2.2.1 t.2.2.2 ∧ b t.2.2.1 t.2.2.2 = p)

/-- board_full(board): no cell is empty. -/
def board_full (b : Board) : Bool :=
  allCells.all fun m => decide (b m.1 m.2 ≠ Cell.E)

/-- The fixed move priority: center, then corners, then edges. -/
def priority : List Move :=
  [(1, 1), (0, 0), (0, 2), (2, 0), (2, 2), (0, 1), (1, 0), (1, 2), (2, 1)]

/-- The move list [(i, j) for i, j in priority if board[i][j] is empty],
computed once at each node of the search and once in best_move. -/
def legalMoves (b : Board) : List Move :=
  priority.filter fun m => decide (b m.1 m.2 = Cell.E)

/-- Empty cells in row-major order, as produced by the list comprehensions in
the two random branches of ai_move. -/
def empty_cells (b : Board) : List Move :=
  allCells.filter fun m => decide (b m.1 m.2 = Cell.E)

/-- The number of empty cells; it bounds the recursion depth of the search. -/
def emptyCount (b : Board) : ℕ := (empty_cells b).length

/-- Integers extended with minus and plus infinity: the source mixes integer
scores with float inf values, so search values live in this order. -/
abbrev EInt := WithBot (WithTop ℤ)

/-- Embedding of an integer score into the extended integers. -/
def toE (n : ℤ) : EInt := ((n : WithTop ℤ) : EInt)

/-- The maximizing loop of minimax (value only): fold over the precomputed move
list, keeping the running maximum and alpha, breaking once beta is at most
alpha.  The recursive call on the board with an O placed is abstracted as rec. -/
def maxLoop (rec : Board → ℤ → Bool → EInt → EInt → EInt) (b : Board) (d : ℤ) :
    List Move → EInt → EInt → EInt → EInt
  | [], best, _, _ => best
  | m :: rest, best, a, c =>
    if c ≤ max a (rec (place b m.1 m.2 Cell.O) (d + 1) false a c) then
      max best (rec (place b m.1 m.2 Cell.O) (d + 1) false a c)
    else
      maxLoop rec b d rest (max best (rec (place b m.1 m.2 Cell.O) (d + 1) false a c))
        (max a (rec (place b m.1 m.2 Cell.O) (d + 1) false a c)) c

/-- The minimizing loop of minimax (value only), symmetric to maxLoop: X is
placed, the running minimum and beta are kept, break once beta is at most
alpha. -/
def minLoop (rec : Board → ℤ → Bool → EInt → EInt → EInt) (b : Board) (d : ℤ) :
    List Move → EInt → EInt → EInt → EInt
  | [], best, _, _ => best
  | m :: rest, best, a, c =>
    if min c (rec (place b m.1 m.2 Cell.X) (d + 1) true a c) ≤ a then
      min best (rec (place b m.1 m.2 Cell.X) (d + 1) true a c)
    else
      minLoop rec b d rest (min best (rec (place b m.1 m.2 Cell.X) (d + 1) true a c))
        a (min c (rec (place b m.1 m.2 Cell.X) (d + 1) true a c))

/-- minimax(board, depth, is_maximizing, alpha, beta) with a fuel argument for
termination; any fuel above emptyCount b gives the value of the source
function.  Terminal tests come first: an O win scores 10 - depth, an X win
scores depth - 10, a full board scores 0; otherwise the prioritized legal
moves are searched with alpha-beta pruning. -/
def minimaxF : ℕ → Board → ℤ → Bool → EInt → EInt → EInt
  | 0, _, _, _, _, _ => toE 0
  | fuel + 1, b, d, isMax, a, c =>
    if check_win b Cell.O = true then toE (10 - d)
    else if check_win b Cell.X = true then toE (d - 10)
    else if board_full b = true then toE 0
    else if isMax then maxLoop (minimaxF fuel) b d (legalMoves b) ⊥ a c
    else minLoop (minimaxF fuel) b d (legalMoves b) ⊤ a c

/-- minimax at fuel 10, which is enough for every board (at most 9 empties). -/
def minimax (b : Board) (d : ℤ) (isMax : Bool) (a c : EInt) : EInt :=
  minimaxF 10 b d isMax a c

/-- Reference definition from the spec: plain minimax computed over all legal
moves with no cutoffs, used to state the pruning-invariance claim. -/
def plainF : ℕ → Board → ℤ → Bool → EInt
  | 0, _, _, _ => toE 0
  | fuel + 1, b, d, isMax =>
    if check_win b Cell.O = true then toE (10 - d)
    else if check_win b Cell.X = true then toE (d - 10)
    else if board_full b = true then toE 0
    else if isMax then
      (legalMoves b).foldl
        (fun acc m => max acc (plainF fuel (place b m.1 m.2 Cell.O) (d + 1) false)) ⊥
    else
      (legalMoves b).foldl
        (fun acc m => min acc (plainF fuel (place b m.1 m.2 Cell.X) (d + 1) true)) ⊤

/-- The unpruned minimax at fuel 10 (enough for every board). -/
def minimaxPlain (b : Board) (d : ℤ) (isMax : Bool) : EInt :=
  plainF 10 b d isMax

/-- The maximizing loop with the mutated board threaded through: each step
writes an O, recurses (receiving the board the recursion leaves behind), then
writes the cell back to empty before continuing or breaking. -/
def maxLoopS (rec : Board → ℤ → Bool → EInt → EInt → EInt × Board) (b : Board) (d : ℤ) :
    List Move → EInt → EInt → EInt → EInt × Board
  | [], best, _, _ => (best, b)
  | m :: rest, best, a, c =>
    if c ≤ max a (rec (place b m.1 m.2 Cell.O) (d + 1) false a c).1 then
      (max best (rec (place b m.1 m.2 Cell.O) (d + 1) false a c).1,
        place (rec (place b m.1 m.2 Cell.O) (d + 1) false a c).2 m.1 m.2 Cell.E)
    else
      maxLoopS rec (place (rec (place b m.1 m.2 Cell.O) (d + 1) false a c).2 m.1 m.2 Cell.E)
        d rest (max best (rec (place b m.1 m.2 Cell.O) (d + 1) false a c).1)
        (max a (rec (place b m.1 m.2 Cell.O) (d + 1) false a c).1) c

/-- The minimizing loop with the mutated board threaded through. -/
def minLoopS (rec : Board → ℤ → Bool → EInt → EInt → EInt × Board) (b : Board) (d : ℤ) :
    List Move → EInt → EInt → EInt → EInt × Board
  | [], best, _, _ => (best, b)
  | m :: rest, best, a, c =>
    if min c (rec (place b m.1 m.2 Cell.X) (d + 1) true a c).1 ≤ a then
      (min best (rec (place b m.1 m.2 Cell.X) (d + 1) true a c).1,
        place (rec (place b m.1 m.2 Cell.X) (d + 1) true a c).2 m.1 m.2 Cell.E)
    else
      minLoopS rec (place (rec (place b m.1 m.2 Cell.X) (d + 1) true a c).2 m.1 m.2 Cell.E)
        d rest (min best (rec (place b m.1 m.2 Cell.X) (d + 1) true a c).1)
        a (min c (rec (place b m.1 m.2 Cell.X) (d + 1) true a c).1)

/-- minimax with the board mutation made explicit: returns the search value
together with the board as it is when the function returns. -/
def minimaxS : ℕ → Board → ℤ → Bool → EInt → EInt → EInt × Board
  | 0, b, _, _, _, _ => (toE 0, b)
  | fuel + 1, b, d, isMax, a, c =>
    if check_win b Cell.O = true then (toE (10 - d), b)
    else if check_win b Cell.X = true then (toE (d - 10), b)
    else if board_full b = true then (toE 0, b)
    else if isMax then maxLoopS (minimaxS fuel) b d (legalMoves b) ⊥ a c
    else minLoopS (minimaxS fuel) b d (legalMoves b) ⊤ a c

/-- The value best_move assigns to a trial move: place O there and evaluate
minimax(board, 0, False, -inf, inf). -/
def trialValue (b : Board) (m : Move) : EInt :=
  minimax (place b m.1 m.2 Cell.O) 0 false ⊥ ⊤

/-- The selection loop of best_move, abstracted over the value function: keep
the first move whose value strictly exceeds the best value seen so far. -/
def bmLoop (v : Move → EInt) : List Move → EInt → Option Move → Option Move
  | [], _, best => best
  | m :: rest, bestVal, best =>
    if bestVal < v m then bmLoop v rest (v m) (some m)
    else bmLoop v rest bestVal best

/-- best_move(board): iterate the prioritized legal moves, trialing each as O,
returning the first move of strictly greatest minimax value (None when there
are no legal moves). -/
def best_move (b : Board) : Option Move :=
  bmLoop (trialValue b) (legalMoves b) ⊥ none

/-- The selection loop of best_move with the mutated board threaded through. -/
def bmLoopS : Board → List Move → EInt → Option Move → Option Move × Board
  | b, [], _, best => (best, b)
  | b, m :: rest, bestVal, best =>
    if bestVal < (minimaxS 10 (place b m.1 m.2 Cell.O) 0 false ⊥ ⊤).1 then
      bmLoopS (place (minimaxS 10 (place b m.1 m.2 Cell.O) 0 false ⊥ ⊤).2 m.1 m.2 Cell.E)
        rest (minimaxS 10 (place b m.1 m.2 Cell.O) 0 false ⊥ ⊤).1 (some m)
    else
      bmLoopS (place (minimaxS 10 (place b m.1 m.2 Cell.O) 0 false ⊥ ⊤).2 m.1 m.2 Cell.E)
        rest bestVal best

/-- best_move with the board mutation made explicit. -/
def best_moveS (b : Board) : Option Move × Board :=
  bmLoopS b (legalMoves b) ⊥ none

/-- AI_RANDOMNESS = 0.2: probability of the random override in ai_move. -/
def AI_RANDOMNESS : ℚ := 1 / 5

/-- The canonical board key: the nine cells concatenated row-major, a dash
standing for an empty cell. -/
def boardKey (b : Board) : List Char :=
  allCells.map fun m =>
    match b m.1 m.2 with
    | Cell.X => 'X'
    | Cell.O => 'O'
    | Cell.E => '-'

/-- Dictionary lookup of a key in the opening book. -/
def bookLookup (book : List (List Char × ℕ)) (key : List Char) : Option ℕ :=
  (book.find? fun e => decide (e.1 = key)).map fun e => e.2

/-- random.choice on a list of moves: raises IndexError (modelled as an error)
on an empty list; the random index is injected as k, reduced modulo the
length. -/
def randomChoice (l : List Move) (k : ℕ) : Except Unit (ℕ × ℕ) :=
  match l with
  | [] => Except.error ()
  | x :: xs =>
    match (x :: xs).get ⟨k % (x :: xs).length, Nat.mod_lt _ (Nat.succ_pos xs.length)⟩ with
    | (i, j) => Except.ok (i.val, j.val)

/-- ai_move(board).  The gate probability is the parameter p (the spec calls it
random_override_probability; the code fixes p = AI_RANDOMNESS), the uniform
draw random.random() is r, the random.choice index is k, the BOOK dictionary
is book, and best_move is passed as the search parameter (the code always
passes best_move; keeping it a parameter lets theorems state that the book
branch does not invoke the search). -/
def ai_move (p r : ℚ) (k : ℕ) (book : List (List Char × ℕ))
    (search : Board → Option Move) (b : Board) : Except Unit (ℕ × ℕ) :=
  if r < p then randomChoice (empty_cells b) k
  else
    match bookLookup book (boardKey b) with
    | some idx => Except.ok (idx / 3, idx % 3)
    | none =>
      match search b with
      | some m => Except.ok (m.1.val, m.2.val)
      | none => randomChoice (empty_cells b) k

/-- Outcome of opening the book resource and parsing its JSON, abstracting the
filesystem and the json library: either a parsed table, or the two failure
modes the source code distinguishes. -/
inductive LoadOutcome
  | ok (entries : List (List Char × ℕ))
  | fileNotFound
  | jsonDecodeError

/-- A Python exception propagated out of a loader. -/
inductive PyError
  | fileNotFound
  | jsonDecodeError
deriving DecidableEq

/-- The module-level BOOK initialization (source lines 41-46): json.load inside
try, with except (FileNotFoundError, json.JSONDecodeError) printing a warning
and leaving BOOK = {}.  Returns the table and whether the warning was
printed. -/
def loadBOOK : LoadOutcome → Except PyError (List (List Char × ℕ) × Bool)
  | LoadOutcome.ok t => Except.ok (t, false)
  | LoadOutcome.fileNotFound => Except.ok ([], true)
  | LoadOutcome.jsonDecodeError => Except.ok ([], true)

/-- load_opening_book() (source lines 354-366): only FileNotFoundError is
caught; a json.JSONDecodeError propagates to the caller. -/
def load_opening_book : LoadOutcome → Except PyError (List (List Char × ℕ) × Bool)
  | LoadOutcome.ok t => Except.ok (t, false)
  | LoadOutcome.fileNotFound => Except.ok ([], true)
  | LoadOutcome.jsonDecodeError => Except.error PyError.jsonDecodeError

/-- The empty board play_round starts from. -/
def emptyBoard : Board := fun _ _ => Cell.E

/-- The symbol moving at turn t in play_round: X on even turns, O on odd. -/
def sym (t : ℕ) : Cell := if t % 2 = 0 then Cell.X else Cell.O

/-- Boards arising after t moves of play_round: play starts from the empty
board and a move is made only while the game is still running, that is the
previous move did not win and the board is neither full nor dead.  The source
only re-checks the win for the player who just moved; since a move never
completes a line of the other player, demanding that neither player has won is
the same condition, stated symmetrically. -/
inductive Reachable : ℕ → Board → Prop
  | init : Reachable 0 emptyBoard
  | step (t : ℕ) (b : Board) (i j : Fin 3) :
      Reachable t b →
      check_win b Cell.X = false → check_win b Cell.O = false →
      board_full b = false → no_possible_win b = false →
      b i j = Cell.E →
      Reachable (t + 1) (place b i j (sym t))

/-- Convenience constructor of a board from three rows. -/
def mkBoard (rows : List (List Cell)) : Board :=
  fun i j => (rows.getD i.val []).getD j.val Cell.E

/-- A full board on which X has won (row 0), reachable in a real game: X fills
the board with the ninth move, winning at the same time. -/
def exFull : Board :=
  mkBoard [[Cell.X, Cell.X, Cell.X], [Cell.O, Cell.O, Cell.X], [Cell.O, Cell.X, Cell.O]]

/-- A board where O (the maximizing side) has an immediate winning move at
(0, 2). -/
def exW : Board :=
  mkBoard [[Cell.O, Cell.O, Cell.E], [Cell.X, Cell.X, Cell.E], [Cell.E, Cell.E, Cell.E]]

/-- A dead board: every line contains both X and O. -/
def exDead : Board :=
  mkBoard [[Cell.X, Cell.X, Cell.O], [Cell.O, Cell.O, Cell.X], [Cell.X, Cell.X, Cell.O]]

/-- The fail-soft alpha-beta contract: how the pruned value r may relate to the
plain value v given the window (a, c): exact inside the window, bracketed
between v and the window bound when failing low or high. -/
def Tri (v r a c : EInt) : Prop :=
  (v ≤ a → r ≤ a ∧ v ≤ r) ∧ (c ≤ v → c ≤ r ∧ r ≤ v) ∧ (a < v → v < c → r = v)

/-! ### Basic facts about cells, boards and move lists -/

theorem mem_allCells (m : Move) : m ∈ allCells := by
  revert m; decide

theorem mem_priority (m : Move) : m ∈ priority := by
  revert m; decide

theorem allCells_nodup : allCells.Nodup := by decide

theorem priority_nodup : priority.Nodup := by decide

theorem place_same (b : Board) (i j : Fin 3) (s : Cell) : place b i j s i j = s := by
  simp [place]

theorem place_other (b : Board) (i j : Fin 3) (s : Cell) {r c : Fin 3}
    (h : ¬(r = i ∧ c = j)) : place b i j s r c = b r c := by
  simp only [place, if_neg h]

theorem place_place_E (b : Board) (i j : Fin 3) (s : Cell) (h : b i j = Cell.E) :
    place (place b i j s) i j Cell.E = b := by
  funext r c
  by_cases hm : r = i ∧ c = j
  · obtain ⟨hr, hc⟩ := hm
    subst hr; subst hc
    simp [place, h]
  · simp only [place, if_neg hm]

theorem mem_legalMoves {b : Board} {m : Move} : m ∈ legalMoves b ↔ b m.1 m.2 = Cell.E := by
  simp [legalMoves, List.mem_filter, mem_priority]

theorem legalMoves_nodup (b : Board) : (legalMoves b).Nodup :=
  priority_nodup.filter _

theorem board_full_eq_true_iff {b : Board} :
    board_full b = true ↔ ∀ i j : Fin 3, b i j ≠ Cell.E := by
  simp only [board_full, List.all_eq_true, decide_eq_true_eq]
  constructor
  · intro h i j
    exact h (i, j) (mem_allCells _)
  · intro h m _
    exact h m.1 m.2

theorem legalMoves_eq_nil_iff {b : Board} :
    legalMoves b = [] ↔ ∀ i j : Fin 3, b i j ≠ Cell.E := by
  constructor
  · intro h i j hE
    have : (i, j) ∈ legalMoves b := mem_legalMoves.2 hE
    simp [h] at this
  · intro h
    cases hl : legalMoves b with
    | nil => rfl
    | cons m rest =>
      have hm : m ∈ legalMoves b := by rw [hl]; exact List.mem_cons_self _ _
      exact absurd (mem_legalMoves.1 hm) (h m.1 m.2)

theorem legalMoves_ne_nil {b : Board} (h : board_full b = false) : legalMoves b ≠ [] := by
  intro hnil
  have : board_full b = true := board_full_eq_true_iff.2 (legalMoves_eq_nil_iff.1 hnil)
  rw [h] at this
  exact Bool.false_ne_true this

/-! ### Counting empty cells -/

theorem filter_length_shift {α : Type} [DecidableEq α] {p q : α → Bool} :
    ∀ (l : List α) (x : α), x ∈ l → l.Nodup → p x = false → q x = true →
      (∀ y ∈ l, y ≠ x → p y = q y) →
      (l.filter p).length + 1 = (l.filter q).length := by
  intro l
  induction l with
  | nil => intro x hx; exact absurd hx (List.not_mem_nil x)
  | cons h t ih =>
    intro x hx hnd hpx hqx hpq
    have hnd2 := List.nodup_cons.1 hnd
    by_cases hxh : x = h
    · subst hxh
      rw [List.filter_cons_of_neg (by simp [hpx]), List.filter_cons_of_pos (by simp [hqx])]
      have hft : t.filter p = t.filter q := by
        apply List.filter_congr
        intro y hy
        exact hpq y (List.mem_cons_of_mem _ hy) (fun hyx => hnd2.1 (hyx ▸ hy))
      rw [hft]
      simp
    · have hxt : x ∈ t := by
        rcases List.mem_cons.1 hx with h1 | h1
        · exact absurd h1 hxh
        · exact h1
      have hph : p h = q h := hpq h (List.mem_cons_self _ _) (fun hh => hxh hh.symm)
      have ihr := ih x hxt hnd2.2 hpx hqx
        (fun y hy hyx => hpq y (List.mem_cons_of_mem _ hy) hyx)
      cases hqh : q h with
      | true =>
        rw [List.filter_cons_of_pos (by simp [hph, hqh]), List.filter_cons_of_pos (by simp [hqh])]
        simpa using ihr
      | false =>
        rw [List.filter_cons_of_neg (by simp [hph, hqh]), List.filter_cons_of_neg (by simp [hqh])]
        exact ihr

theorem emptyCount_place {b : Board} {i j : Fin 3} {s : Cell}
    (hE : b i j = Cell.E) (hs : s ≠ Cell.E) :
    emptyCount (place b i j s) + 1 = emptyCount b := by
  have := filter_length_shift (p := fun m : Move => decide (place b i j s m.1 m.2 = Cell.E))
    (q := fun m : Move => decide (b m.1 m.2 = Cell.E)) allCells (i, j)
    (mem_allCells _) allCells_nodup
    (by simp [place_same, hs])
    (by simp [hE])
    ?_
  · exact this
  · intro y _ hy
    have : ¬(y.1 = i ∧ y.2 = j) := by
      intro hc
      exact hy (Prod.ext hc.1 hc.2)
    simp [place_other b i j s this]

theorem emptyCount_le_nine (b : Board) : emptyCount b ≤ 9 := by
  have h := List.length_filter_le (fun m : Move => decide (b m.1 m.2 = Cell.E)) allCells
  simpa [emptyCount, empty_cells] using h

theorem emptyCount_pos_of_E {b : Board} {i j : Fin 3} (hE : b i j = Cell.E) :
    0 < emptyCount b := by
  have hm : (i, j) ∈ empty_cells b := by
    simp [empty_cells, List.mem_filter, mem_allCells, hE]
  exact List.length_pos.2 (List.ne_nil_of_mem hm)

theorem emptyCount_place_lt {b : Board} {i j : Fin 3} {s : Cell}
    (hE : b i j = Cell.E) (hs : s ≠ Cell.E) :
    emptyCount (place b i j s) < emptyCount b := by
  have h := emptyCount_place hE hs
  omega

/-! ### The extended integers -/

theorem toE_le_toE {m n : ℤ} : toE m ≤ toE n ↔ m ≤ n := by
  simp [toE]

theorem toE_lt_toE {m n : ℤ} : toE m < toE n ↔ m < n := by
  simp [toE]

theorem toE_inj {m n : ℤ} : toE m = toE n ↔ m = n := by
  simp [toE]

theorem toE_ne_bot (n : ℤ) : toE n ≠ ⊥ := by
  simp [toE]

theorem bot_lt_toE (n : ℤ) : (⊥ : EInt) < toE n :=
  WithBot.bot_lt_coe _

theorem toE_lt_top (n : ℤ) : toE n < (⊤ : EInt) := by
  rw [← WithBot.coe_top]
  exact WithBot.coe_lt_coe.2 (WithTop.coe_lt_top n)

theorem toE_max (m n : ℤ) : toE (max m n) = max (toE m) (toE n) := by
  rcases le_total m n with h | h
  · rw [max_eq_right h, max_eq_right (toE_le_toE.2 h)]
  · rw [max_eq_left h, max_eq_left (toE_le_toE.2 h)]

theorem toE_min (m n : ℤ) : toE (min m n) = min (toE m) (toE n) := by
  rcases le_total m n with h | h
  · rw [min_eq_left h, min_eq_left (toE_le_toE.2 h)]
  · rw [min_eq_right h, min_eq_right (toE_le_toE.2 h)]

/-! ### Fold bounds and the fail-soft alpha-beta loop contracts -/

theorem le_foldl_max (pv : Move → EInt) :
    ∀ (ms : List Move) (init : EInt),
      init ≤ ms.foldl (fun acc m => max acc (pv m)) init := by
  intro ms
  induction ms with
  | nil => intro init; simp
  | cons m rest ih =>
    intro init
    simp only [List.foldl_cons]
    exact (le_max_left init (pv m)).trans (ih (max init (pv m)))

theorem foldl_min_le (pv : Move → EInt) :
    ∀ (ms : List Move) (init : EInt),
      ms.foldl (fun acc m => min acc (pv m)) init ≤ init := by
  intro ms
  induction ms with
  | nil => intro init; simp
  | cons m rest ih =>
    intro init
    simp only [List.foldl_cons]
    exact (ih (min init (pv m))).trans (min_le_left init (pv m))

theorem Tri_refl (v a c : EInt) : Tri v v a c :=
  ⟨fun h => ⟨h, le_refl v⟩, fun h => ⟨h, le_refl v⟩, fun _ _ => rfl⟩

theorem maxLoop_spec (rec : Board → ℤ → Bool → EInt → EInt → EInt)
    (pv : Move → EInt) (b : Board) (d : ℤ) (a0 c : EInt) :
    ∀ (ms : List Move) (best a p : EInt),
      (∀ m ∈ ms, ∀ x y : EInt, x < y →
        Tri (pv m) (rec (place b m.1 m.2 Cell.O) (d + 1) false x y) x y) →
      a = max a0 best → a < c → p ≤ best → best ≤ max a0 p →
      Tri (ms.foldl (fun acc m => max acc (pv m)) p) (maxLoop rec b d ms best a c) a0 c := by
  intro ms
  induction ms with
  | nil =>
    intro best a p _ ha hac hp hb
    simp only [List.foldl_nil, maxLoop]
    refine ⟨fun hpa0 => ⟨hb.trans (le_of_eq (max_eq_left hpa0)), hp⟩, ?_, fun h1 _ => ?_⟩
    · intro hcp
      have hpc : p < c := lt_of_le_of_lt (hp.trans (ha ▸ le_max_right a0 best)) hac
      exact absurd hcp (not_le.2 hpc)
    · exact le_antisymm (hb.trans (le_of_eq (max_eq_right (le_of_lt h1)))) hp
  | cons m rest ih =>
    intro best a p hrec ha hac hp hb
    have hrec1 := hrec m (List.mem_cons_self _ _) a c hac
    have hrecR : ∀ m2 ∈ rest, ∀ x y : EInt, x < y →
        Tri (pv m2) (rec (place b m2.1 m2.2 Cell.O) (d + 1) false x y) x y :=
      fun m2 hm2 => hrec m2 (List.mem_cons_of_mem _ hm2)
    simp only [List.foldl_cons, maxLoop]
    set r1 := rec (place b m.1 m.2 Cell.O) (d + 1) false a c with hr1def
    rcases le_or_lt (pv m) a with hlow | hmida
    · obtain ⟨hr1a, hvr1⟩ := hrec1.1 hlow
      rw [if_neg (by rw [max_eq_left hr1a]; exact not_le.2 hac), max_eq_left hr1a]
      refine ih (max best r1) a (max p (pv m)) hrecR
        (by rw [← max_assoc, ← ha, max_eq_left hr1a]) hac (max_le_max hp hvr1) ?_
      have h1 : a ≤ max a0 p := by rw [ha]; exact max_le (le_max_left _ _) hb
      have h2 : max a0 p ≤ max a0 (max p (pv m)) := max_le_max (le_refl _) (le_max_left _ _)
      exact max_le (hb.trans h2) ((hr1a.trans h1).trans h2)
    · rcases lt_or_le (pv m) c with hmid | hhigh
      · have hr1 : r1 = pv m := hrec1.2.2 hmida hmid
        rw [hr1, if_neg (not_le.2 (max_lt hac hmid))]
        exact ih (max best (pv m)) (max a (pv m)) (max p (pv m)) hrecR
          (by rw [← max_assoc, ← ha]) (max_lt hac hmid) (max_le_max hp (le_refl _))
          (max_le (hb.trans (max_le_max (le_refl a0) (le_max_left _ _)))
            ((le_max_right p (pv m)).trans (le_max_right a0 _)))
      · obtain ⟨hcr1, hr1v⟩ := hrec1.2.1 hhigh
        rw [if_pos (hcr1.trans (le_max_right a r1))]
        have hT_ge := le_foldl_max pv rest (max p (pv m))
        have ha0a : a0 ≤ a := ha ▸ le_max_left a0 best
        have hvT : pv m ≤ rest.foldl (fun acc m2 => max acc (pv m2)) (max p (pv m)) :=
          (le_max_right p (pv m)).trans hT_ge
        have hcT : c ≤ rest.foldl (fun acc m2 => max acc (pv m2)) (max p (pv m)) :=
          hhigh.trans hvT
        have hpT : p ≤ rest.foldl (fun acc m2 => max acc (pv m2)) (max p (pv m)) :=
          (le_max_left p (pv m)).trans hT_ge
        have hbT : best ≤ rest.foldl (fun acc m2 => max acc (pv m2)) (max p (pv m)) :=
          hb.trans (max_le (le_of_lt (lt_of_le_of_lt ha0a (lt_of_lt_of_le hac hcT))) hpT)
        refine ⟨fun h => absurd hac (not_lt.2 ((hcT.trans h).trans ha0a)), ?_, ?_⟩
        · intro _
          exact ⟨hcr1.trans (le_max_right best r1), max_le hbT (hr1v.trans hvT)⟩
        · intro _ h2
          exact absurd (lt_of_le_of_lt hcT h2) (lt_irrefl c)

theorem minLoop_spec (rec : Board → ℤ → Bool → EInt → EInt → EInt)
    (pv : Move → EInt) (b : Board) (d : ℤ) (c0 a : EInt) :
    ∀ (ms : List Move) (best c p : EInt),
      (∀ m ∈ ms, ∀ x y : EInt, x < y →
        Tri (pv m) (rec (place b m.1 m.2 Cell.X) (d + 1) true x y) x y) →
      c = min c0 best → a < c → best ≤ p → min c0 p ≤ best →
      Tri (ms.foldl (fun acc m => min acc (pv m)) p) (minLoop rec b d ms best a c) a c0 := by
  intro ms
  induction ms with
  | nil =>
    intro best c p _ hc hac hbp hb2
    simp only [List.foldl_nil, minLoop]
    have hcc0 : c ≤ c0 := hc ▸ min_le_left c0 best
    refine ⟨?_, ?_, fun _ h2 => ?_⟩
    · intro hpa
      have hpc0 : p ≤ c0 :=
        le_of_lt (lt_of_lt_of_le (lt_of_le_of_lt hpa hac) hcc0)
      exact ⟨hbp.trans hpa, (le_of_eq (min_eq_right hpc0).symm).trans hb2⟩
    · intro hc0p
      exact ⟨(le_of_eq (min_eq_left hc0p).symm).trans hb2, hbp⟩
    · exact le_antisymm hbp ((le_of_eq (min_eq_right (le_of_lt h2)).symm).trans hb2)
  | cons m rest ih =>
    intro best c p hrec hc hac hbp hb2
    have hrec1 := hrec m (List.mem_cons_self _ _) a c hac
    have hrecR : ∀ m2 ∈ rest, ∀ x y : EInt, x < y →
        Tri (pv m2) (rec (place b m2.1 m2.2 Cell.X) (d + 1) true x y) x y :=
      fun m2 hm2 => hrec m2 (List.mem_cons_of_mem _ hm2)
    simp only [List.foldl_cons, minLoop]
    set r1 := rec (place b m.1 m.2 Cell.X) (d + 1) true a c with hr1def
    have hcc0 : c ≤ c0 := hc ▸ min_le_left c0 best
    rcases le_or_lt (pv m) a with hlow | hmida
    · obtain ⟨hr1a, hvr1⟩ := hrec1.1 hlow
      rw [if_pos ((min_le_right c r1).trans hr1a)]
      have hT_le := foldl_min_le pv rest (min p (pv m))
      have hTv : rest.foldl (fun acc m2 => min acc (pv m2)) (min p (pv m)) ≤ pv m :=
        hT_le.trans (min_le_right _ _)
      have hTa : rest.foldl (fun acc m2 => min acc (pv m2)) (min p (pv m)) ≤ a :=
        hTv.trans hlow
      have hTp : rest.foldl (fun acc m2 => min acc (pv m2)) (min p (pv m)) ≤ p :=
        hT_le.trans (min_le_left _ _)
      have hTbest : rest.foldl (fun acc m2 => min acc (pv m2)) (min p (pv m)) ≤ best :=
        (le_min (le_of_lt (lt_of_le_of_lt hTa (lt_of_lt_of_le hac hcc0))) hTp).trans hb2
      refine ⟨?_, ?_, ?_⟩
      · intro h
        exact ⟨(min_le_right best r1).trans hr1a, le_min hTbest (hTv.trans hvr1)⟩
      · intro h
        exact absurd (lt_of_le_of_lt (h.trans hTa) hac) (not_lt.2 hcc0)
      · intro h1 _
        exact absurd (lt_of_lt_of_le h1 hTa) (lt_irrefl a)
    · rcases lt_or_le (pv m) c with hmid | hhigh
      · have hr1 : r1 = pv m := hrec1.2.2 hmida hmid
        rw [hr1, if_neg (not_le.2 (lt_min hac hmida))]
        refine ih (min best (pv m)) (min c (pv m)) (min p (pv m)) hrecR
          (by rw [← min_assoc, ← hc]) (lt_min hac hmida) (min_le_min hbp (le_refl _)) ?_
        exact le_min ((min_le_min (le_refl c0) (min_le_left _ _)).trans hb2)
          ((min_le_right c0 _).trans (min_le_right p _))
      · obtain ⟨hcr1, hr1v⟩ := hrec1.2.1 hhigh
        rw [if_neg (by rw [min_eq_left hcr1]; exact not_le.2 hac)]
        refine ih (min best r1) (min c r1) (min p (pv m)) hrecR
          (by rw [← min_assoc, ← hc, min_eq_left hcr1]) ?_ (min_le_min hbp hr1v) ?_
        · rw [min_eq_left hcr1]; exact hac
        · refine le_min ((min_le_min (le_refl c0) (min_le_left _ _)).trans hb2) ?_
          have s1 : min c0 (min p (pv m)) ≤ min c0 best :=
            le_min (min_le_left _ _)
              ((min_le_min (le_refl c0) (min_le_left _ _)).trans hb2)
          exact (s1.trans (le_of_eq hc.symm)).trans hcr1

/-! ### Pruning invariance: alpha-beta agrees with the plain minimax -/

theorem child_fuel {b : Board} {fuel : ℕ} (hfuel : emptyCount b < fuel + 1) {m : Move}
    (hm : m ∈ legalMoves b) {s : Cell} (hs : s ≠ Cell.E) :
    emptyCount (place b m.1 m.2 s) < fuel := by
  have hE := mem_legalMoves.1 hm
  have := emptyCount_place hE hs
  have hpos := emptyCount_pos_of_E hE
  omega

theorem minimaxF_tri : ∀ (fuel : ℕ) (b : Board) (d : ℤ) (isMax : Bool) (a c : EInt),
    emptyCount b < fuel → a < c →
    Tri (plainF fuel b d isMax) (minimaxF fuel b d isMax a c) a c := by
  intro fuel
  induction fuel with
  | zero => intro b d isMax a c h; exact absurd h (Nat.not_lt_zero _)
  | succ fuel ih =>
    intro b d isMax a c hfuel hac
    by_cases hO : check_win b Cell.O = true
    · simp only [plainF, minimaxF, if_pos hO]
      exact Tri_refl _ _ _
    · by_cases hX : check_win b Cell.X = true
      · simp only [plainF, minimaxF, if_neg hO, if_pos hX]
        exact Tri_refl _ _ _
      · by_cases hF : board_full b = true
        · simp only [plainF, minimaxF, if_neg hO, if_neg hX, if_pos hF]
          exact Tri_refl _ _ _
        · cases isMax with
          | true =>
            simp only [plainF, minimaxF, if_neg hO, if_neg hX, if_neg hF, if_pos rfl]
            exact maxLoop_spec (minimaxF fuel)
              (fun m => plainF fuel (place b m.1 m.2 Cell.O) (d + 1) false) b d a c
              (legalMoves b) ⊥ a ⊥
              (fun m hm x y hxy =>
                ih (place b m.1 m.2 Cell.O) (d + 1) false x y
                  (child_fuel hfuel hm (by decide)) hxy)
              (max_eq_left bot_le).symm hac (le_refl _) bot_le
          | false =>
            simp only [plainF, minimaxF, if_neg hO, if_neg hX, if_neg hF]
            exact minLoop_spec (minimaxF fuel)
              (fun m => plainF fuel (place b m.1 m.2 Cell.X) (d + 1) true) b d c a
              (legalMoves b) ⊤ c ⊤
              (fun m hm x y hxy =>
                ih (place b m.1 m.2 Cell.X) (d + 1) true x y
                  (child_fuel hfuel hm (by decide)) hxy)
              (min_eq_left le_top).symm hac (le_refl _) le_top

theorem foldl_max_finite (pv : Move → EInt) :
    ∀ (ms : List Move) (n : ℤ), (∀ m ∈ ms, ∃ k : ℤ, pv m = toE k) →
      ∃ k : ℤ, ms.foldl (fun acc m => max acc (pv m)) (toE n) = toE k := by
  intro ms
  induction ms with
  | nil => intro n _; exact ⟨n, rfl⟩
  | cons m rest ih =>
    intro n hfin
    obtain ⟨k, hk⟩ := hfin m (List.mem_cons_self _ _)
    simp only [List.foldl_cons, hk, ← toE_max]
    exact ih (max n k) (fun m2 hm2 => hfin m2 (List.mem_cons_of_mem _ hm2))

theorem foldl_min_finite (pv : Move → EInt) :
    ∀ (ms : List Move) (n : ℤ), (∀ m ∈ ms, ∃ k : ℤ, pv m = toE k) →
      ∃ k : ℤ, ms.foldl (fun acc m => min acc (pv m)) (toE n) = toE k := by
  intro ms
  induction ms with
  | nil => intro n _; exact ⟨n, rfl⟩
  | cons m rest ih =>
    intro n hfin
    obtain ⟨k, hk⟩ := hfin m (List.mem_cons_self _ _)
    simp only [List.foldl_cons, hk, ← toE_min]
    exact ih (min n k) (fun m2 hm2 => hfin m2 (List.mem_cons_of_mem _ hm2))

theorem plainF_finite : ∀ (fuel : ℕ) (b : Board) (d : ℤ) (isMax : Bool),
    emptyCount b < fuel → ∃ n : ℤ, plainF fuel b d isMax = toE n := by
  intro fuel
  induction fuel with
  | zero => intro b d isMax h; exact absurd h (Nat.not_lt_zero _)
  | succ fuel ih =>
    intro b d isMax hfuel
    by_cases hO : check_win b Cell.O = true
    · exact ⟨10 - d, by simp only [plainF, if_pos hO]⟩
    · by_cases hX : check_win b Cell.X = true
      · exact ⟨d - 10, by simp only [plainF, if_neg hO, if_pos hX]⟩
      · by_cases hF : board_full b = true
        · exact ⟨0, by simp only [plainF, if_neg hO, if_neg hX, if_pos hF]⟩
        · have hne : legalMoves b ≠ [] :=
            legalMoves_ne_nil (Bool.not_eq_true (board_full b) ▸ hF)
          cases hl : legalMoves b with
          | nil => exact absurd hl hne
          | cons m rest =>
            have hmem : ∀ m2 ∈ legalMoves b, m2 ∈ legalMoves b := fun _ h => h
            cases isMax with
            | true =>
              simp only [plainF, if_neg hO, if_neg hX, if_neg hF, if_pos rfl, hl,
                List.foldl_cons, max_eq_right bot_le]
              obtain ⟨k, hk⟩ := ih (place b m.1 m.2 Cell.O) (d + 1) false
                (child_fuel hfuel (hl ▸ List.mem_cons_self m rest) (by decide))
              rw [hk]
              exact foldl_max_finite _ rest k
                (fun m2 hm2 =>
                  ih (place b m2.1 m2.2 Cell.O) (d + 1) false
                    (child_fuel hfuel (hl ▸ List.mem_cons_of_mem m hm2) (by decide)))
            | false =>
              simp only [plainF, if_neg hO, if_neg hX, if_neg hF, hl,
                List.foldl_cons, min_eq_right le_top]
              obtain ⟨k, hk⟩ := ih (place b m.1 m.2 Cell.X) (d + 1) true
                (child_fuel hfuel (hl ▸ List.mem_cons_self m rest) (by decide))
              rw [hk]
              exact foldl_min_finite _ rest k
                (fun m2 hm2 =>
                  ih (place b m2.1 m2.2 Cell.X) (d + 1) true
                    (child_fuel hfuel (hl ▸ List.mem_cons_of_mem m hm2) (by decide)))

theorem minimaxF_eq_plainF (fuel : ℕ) (b : Board) (d : ℤ) (isMax : Bool)
    (hfuel : emptyCount b < fuel) :
    minimaxF fuel b d isMax ⊥ ⊤ = plainF fuel b d isMax := by
  obtain ⟨n, hn⟩ := plainF_finite fuel b d isMax hfuel
  have h := (minimaxF_tri fuel b d isMax ⊥ ⊤ hfuel bot_lt_top).2.2
  rw [hn] at h ⊢
  exact h (bot_lt_toE n) (toE_lt_top n)

theorem emptyCount_lt_ten (b : Board) : emptyCount b < 10 :=
  Nat.lt_succ_of_le (emptyCount_le_nine b)

/-! ### Score bounds of the search -/

theorem maxLoop_le (rec : Board → ℤ → Bool → EInt → EInt → EInt) (b : Board) (d : ℤ)
    (L : EInt) :
    ∀ (ms : List Move) (best a c : EInt),
      (∀ m ∈ ms, ∀ x y : EInt, rec (place b m.1 m.2 Cell.O) (d + 1) false x y ≤ L) →
      best ≤ L → maxLoop rec b d ms best a c ≤ L := by
  intro ms
  induction ms with
  | nil => intro best a c _ hbest; simpa [maxLoop] using hbest
  | cons m rest ih =>
    intro best a c hrec hbest
    simp only [maxLoop]
    have hv : rec (place b m.1 m.2 Cell.O) (d + 1) false a c ≤ L :=
      hrec m (List.mem_cons_self _ _) a c
    split
    · exact max_le hbest hv
    · exact ih _ _ _ (fun m2 hm2 => hrec m2 (List.mem_cons_of_mem _ hm2)) (max_le hbest hv)

theorem minLoop_le_best (rec : Board → ℤ → Bool → EInt → EInt → EInt) (b : Board) (d : ℤ) :
    ∀ (ms : List Move) (best a c : EInt), minLoop rec b d ms best a c ≤ best := by
  intro ms
  induction ms with
  | nil => intro best a c; simp [minLoop]
  | cons m rest ih =>
    intro best a c
    simp only [minLoop]
    split
    · exact min_le_left _ _
    · exact (ih _ _ _).trans (min_le_left _ _)

theorem minimaxF_le_bound :
    ∀ (fuel : ℕ) (b : Board) (d : ℤ) (isMax : Bool) (a c : EInt),
      d + (emptyCount b : ℤ) ≤ 9 →
      minimaxF fuel b d isMax a c ≤ toE (10 - d) ∧
        (check_win b Cell.O = false → minimaxF fuel b d isMax a c ≤ toE (9 - d)) := by
  intro fuel
  induction fuel with
  | zero =>
    intro b d isMax a c hd
    have h0 : (0 : ℤ) ≤ (emptyCount b : ℤ) := Int.natCast_nonneg _
    constructor
    · exact toE_le_toE.2 (by omega)
    · intro _; exact toE_le_toE.2 (by omega)
  | succ fuel ih =>
    intro b d isMax a c hd
    have h0 : (0 : ℤ) ≤ (emptyCount b : ℤ) := Int.natCast_nonneg _
    by_cases hO : check_win b Cell.O = true
    · simp only [minimaxF, if_pos hO]
      exact ⟨le_refl _, fun h => absurd hO (by simp [h])⟩
    · by_cases hX : check_win b Cell.X = true
      · simp only [minimaxF, if_neg hO, if_pos hX]
        exact ⟨toE_le_toE.2 (by omega), fun _ => toE_le_toE.2 (by omega)⟩
      · by_cases hF : board_full b = true
        · simp only [minimaxF, if_neg hO, if_neg hX, if_pos hF]
          exact ⟨toE_le_toE.2 (by omega), fun _ => toE_le_toE.2 (by omega)⟩
        · have hchild : ∀ s : Cell, s ≠ Cell.E → ∀ m2 ∈ legalMoves b,
              d + 1 + (emptyCount (place b m2.1 m2.2 s) : ℤ) ≤ 9 := by
            intro s hs m2 hm2
            have hE := mem_legalMoves.1 hm2
            have := emptyCount_place hE hs
            omega
          have h9 : toE (9 - d) ≤ toE (10 - d) := toE_le_toE.2 (by omega)
          have heq : (10 - (d + 1) : ℤ) = 9 - d := by ring
          cases isMax with
          | true =>
            simp only [minimaxF, if_neg hO, if_neg hX, if_neg hF, if_pos rfl]
            have hb : maxLoop (minimaxF fuel) b d (legalMoves b) ⊥ a c ≤ toE (9 - d) := by
              apply maxLoop_le _ _ _ _ _ _ _ _ ?_ bot_le
              intro m2 hm2 x y
              have := (ih (place b m2.1 m2.2 Cell.O) (d + 1) false x y
                (hchild Cell.O (by decide) m2 hm2)).1
              rwa [heq] at this
            exact ⟨hb.trans h9, fun _ => hb⟩
          | false =>
            simp only [minimaxF, if_neg hO, if_neg hX, if_neg hF]
            have hne : legalMoves b ≠ [] :=
              legalMoves_ne_nil (Bool.not_eq_true (board_full b) ▸ hF)
            cases hl : legalMoves b with
            | nil => exact absurd hl hne
            | cons m rest =>
              have hv : minimaxF fuel (place b m.1 m.2 Cell.X) (d + 1) true a c ≤ toE (9 - d) := by
                have := (ih (place b m.1 m.2 Cell.X) (d + 1) true a c
                  (hchild Cell.X (by decide) m (hl ▸ List.mem_cons_self m rest))).1
                rwa [heq] at this
              have hb : minLoop (minimaxF fuel) b d (m :: rest) ⊤ a c ≤ toE (9 - d) := by
                simp only [minLoop]
                split
                · exact (min_le_right _ _).trans hv
                · exact (minLoop_le_best _ _ _ _ _ _ _).trans ((min_le_right _ _).trans hv)
              exact ⟨hb.trans h9, fun _ => hb⟩

/-! ### Trial values used by best_move -/

theorem trialValue_finite (b : Board) (m : Move) : ∃ n : ℤ, trialValue b m = toE n := by
  have h := minimaxF_eq_plainF 10 (place b m.1 m.2 Cell.O) 0 false (emptyCount_lt_ten _)
  rw [trialValue, minimax, h]
  exact plainF_finite 10 _ 0 false (emptyCount_lt_ten _)

theorem trialValue_le_ten (b : Board) (m : Move) : trialValue b m ≤ toE 10 := by
  have h := (minimaxF_le_bound 10 (place b m.1 m.2 Cell.O) 0 false ⊥ ⊤
    (by have := emptyCount_le_nine (place b m.1 m.2 Cell.O); omega)).1
  have h10 : (10 - 0 : ℤ) = 10 := by norm_num
  rw [h10] at h
  exact h

theorem trialValue_win {b : Board} {m : Move}
    (h : check_win (place b m.1 m.2 Cell.O) Cell.O = true) : trialValue b m = toE 10 := by
  rw [trialValue, minimax, show (10 : ℕ) = 9 + 1 from rfl]
  simp only [minimaxF, if_pos h]
  norm_num

theorem trialValue_not_win {b : Board} {m : Move}
    (h : check_win (place b m.1 m.2 Cell.O) Cell.O = false) : trialValue b m ≤ toE 9 := by
  have hb := (minimaxF_le_bound 10 (place b m.1 m.2 Cell.O) 0 false ⊥ ⊤
    (by have := emptyCount_le_nine (place b m.1 m.2 Cell.O); omega)).2 h
  have h9 : (9 - 0 : ℤ) = 9 := by norm_num
  rw [h9] at hb
  exact hb

/-! ### The selection loop of best_move -/

theorem bmLoop_eq_none (v : Move → EInt) :
    ∀ (ms : List Move) (bestVal : EInt) (best : Option Move),
      bmLoop v ms bestVal best = none ↔ (best = none ∧ ∀ m ∈ ms, v m ≤ bestVal) := by
  intro ms
  induction ms with
  | nil =>
    intro bestVal best
    simp [bmLoop]
  | cons m rest ih =>
    intro bestVal best
    simp only [bmLoop]
    split
    · rename_i hlt
      rw [ih]
      constructor
      · intro h
        exact absurd h.1 (Option.some_ne_none m)
      · intro h
        exact absurd (h.2 m (List.mem_cons_self _ _)) (not_le.2 hlt)
    · rename_i hnlt
      rw [ih]
      constructor
      · intro h
        exact ⟨h.1, fun m2 hm2 => by
          rcases List.mem_cons.1 hm2 with h2 | h2
          · exact h2 ▸ not_lt.1 hnlt
          · exact h.2 m2 h2⟩
      · intro h
        exact ⟨h.1, fun m2 hm2 => h.2 m2 (List.mem_cons_of_mem _ hm2)⟩

theorem bmLoop_some_spec (v : Move → EInt) :
    ∀ (ms : List Move) (bestVal : EInt) (best : Option Move) (m : Move),
      bmLoop v ms bestVal best = some m →
      (best = some m ∧ ∀ x ∈ ms, v x ≤ bestVal) ∨
      (∃ l1 l2, ms = l1 ++ m :: l2 ∧ bestVal < v m ∧
        (∀ x ∈ l1, v x < v m) ∧ (∀ x ∈ l2, v x ≤ v m)) := by
  intro ms
  induction ms with
  | nil =>
    intro bestVal best m h
    simp only [bmLoop] at h
    exact Or.inl ⟨h, fun x hx => absurd hx (List.not_mem_nil x)⟩
  | cons a rest ih =>
    intro bestVal best m h
    simp only [bmLoop] at h
    by_cases hlt : bestVal < v a
    · rw [if_pos hlt] at h
      rcases ih (v a) (some a) m h with ⟨h1, h2⟩ | ⟨l1, l2, heq, hbv, h1, h2⟩
      · have ham : a = m := Option.some_inj.1 h1
        subst ham
        exact Or.inr ⟨[], rest, rfl, hlt, fun x hx => absurd hx (List.not_mem_nil x), h2⟩
      · refine Or.inr ⟨a :: l1, l2, by rw [heq, List.cons_append], hlt.trans hbv, ?_, h2⟩
        intro x hx
        rcases List.mem_cons.1 hx with h3 | h3
        · exact h3 ▸ hbv
        · exact h1 x h3
    · rw [if_neg hlt] at h
      rcases ih bestVal best m h with ⟨h1, h2⟩ | ⟨l1, l2, heq, hbv, h1, h2⟩
      · refine Or.inl ⟨h1, fun x hx => ?_⟩
        rcases List.mem_cons.1 hx with h3 | h3
        · exact h3 ▸ not_lt.1 hlt
        · exact h2 x h3
      · refine Or.inr ⟨a :: l1, l2, by rw [heq, List.cons_append], hbv, ?_, h2⟩
        intro x hx
        rcases List.mem_cons.1 hx with h3 | h3
        · exact h3 ▸ lt_of_le_of_lt (not_lt.1 hlt) hbv
        · exact h1 x h3

/-! ### The search restores the board: stateful and pure versions agree -/

theorem maxLoopS_eq (rec2 : Board → ℤ → Bool → EInt → EInt → EInt × Board)
    (rec : Board → ℤ → Bool → EInt → EInt → EInt)
    (hrec : ∀ (b2 : Board) (d2 : ℤ) (m2 : Bool) (x y : EInt),
      rec2 b2 d2 m2 x y = (rec b2 d2 m2 x y, b2)) (b : Board) (d : ℤ) :
    ∀ (ms : List Move) (best a c : EInt), (∀ m ∈ ms, b m.1 m.2 = Cell.E) →
      maxLoopS rec2 b d ms best a c = (maxLoop rec b d ms best a c, b) := by
  intro ms
  induction ms with
  | nil => intro best a c _; rfl
  | cons m rest ih =>
    intro best a c hms
    have hE : b m.1 m.2 = Cell.E := hms m (List.mem_cons_self _ _)
    simp only [maxLoopS, maxLoop, hrec, place_place_E b m.1 m.2 Cell.O hE]
    split
    · rfl
    · exact ih _ _ _ (fun m2 hm2 => hms m2 (List.mem_cons_of_mem _ hm2))

theorem minLoopS_eq (rec2 : Board → ℤ → Bool → EInt → EInt → EInt × Board)
    (rec : Board → ℤ → Bool → EInt → EInt → EInt)
    (hrec : ∀ (b2 : Board) (d2 : ℤ) (m2 : Bool) (x y : EInt),
      rec2 b2 d2 m2 x y = (rec b2 d2 m2 x y, b2)) (b : Board) (d : ℤ) :
    ∀ (ms : List Move) (best a c : EInt), (∀ m ∈ ms, b m.1 m.2 = Cell.E) →
      minLoopS rec2 b d ms best a c = (minLoop rec b d ms best a c, b) := by
  intro ms
  induction ms with
  | nil => intro best a c _; rfl
  | cons m rest ih =>
    intro best a c hms
    have hE : b m.1 m.2 = Cell.E := hms m (List.mem_cons_self _ _)
    simp only [minLoopS, minLoop, hrec, place_place_E b m.1 m.2 Cell.X hE]
    split
    · rfl
    · exact ih _ _ _ (fun m2 hm2 => hms m2 (List.mem_cons_of_mem _ hm2))

theorem minimaxS_eq : ∀ (fuel : ℕ) (b : Board) (d : ℤ) (isMax : Bool) (a c : EInt),
    minimaxS fuel b d isMax a c = (minimaxF fuel b d isMax a c, b) := by
  intro fuel
  induction fuel with
  | zero => intro b d isMax a c; rfl
  | succ fuel ih =>
    intro b d isMax a c
    by_cases hO : check_win b Cell.O = true
    · simp only [minimaxS, minimaxF, if_pos hO]
    · by_cases hX : check_win b Cell.X = true
      · simp only [minimaxS, minimaxF, if_neg hO, if_pos hX]
      · by_cases hF : board_full b = true
        · simp only [minimaxS, minimaxF, if_neg hO, if_neg hX, if_pos hF]
        · cases isMax with
          | true =>
            simp only [minimaxS, minimaxF, if_neg hO, if_neg hX, if_neg hF, if_pos rfl]
            exact maxLoopS_eq (minimaxS fuel) (minimaxF fuel) ih b d (legalMoves b) ⊥ a c
              (fun m hm => mem_legalMoves.1 hm)
          | false =>
            simp only [minimaxS, minimaxF, if_neg hO, if_neg hX, if_neg hF]
            exact minLoopS_eq (minimaxS fuel) (minimaxF fuel) ih b d (legalMoves b) ⊤ a c
              (fun m hm => mem_legalMoves.1 hm)

theorem bmLoopS_eq (b : Board) :
    ∀ (ms : List Move) (bestVal : EInt) (best : Option Move),
      (∀ m ∈ ms, b m.1 m.2 = Cell.E) →
      bmLoopS b ms bestVal best = (bmLoop (trialValue b) ms bestVal best, b) := by
  intro ms
  induction ms with
  | nil => intro bestVal best _; rfl
  | cons m rest ih =>
    intro bestVal best hms
    have hE : b m.1 m.2 = Cell.E := hms m (List.mem_cons_self _ _)
    have htv : minimaxF 10 (place b m.1 m.2 Cell.O) 0 false ⊥ ⊤ = trialValue b m := rfl
    simp only [bmLoopS, bmLoop, minimaxS_eq, place_place_E b m.1 m.2 Cell.O hE, htv]
    split
    · exact ih _ _ (fun m2 hm2 => hms m2 (List.mem_cons_of_mem _ hm2))
    · exact ih _ _ (fun m2 hm2 => hms m2 (List.mem_cons_of_mem _ hm2))

theorem best_moveS_eq (b : Board) : best_moveS b = (best_move b, b) :=
  bmLoopS_eq b (legalMoves b) ⊥ none (fun _ hm => mem_legalMoves.1 hm)

/-! ### Reachable boards: a move never completes the opponent's line -/

theorem place_cell_eq_iff {b : Board} {i j : Fin 3} {s p : Cell}
    (hE : b i j = Cell.E) (hs : s ≠ p) (hp : p ≠ Cell.E) (r c : Fin 3) :
    place b i j s r c = p ↔ b r c = p := by
  by_cases h : r = i ∧ c = j
  · obtain ⟨hr, hc⟩ := h
    subst hr; subst hc
    rw [place_same, hE]
    exact ⟨fun h2 => absurd h2 hs, fun h2 => absurd h2.symm hp⟩
  · rw [place_other b i j s h]

theorem check_win_place_other {b : Board} {i j : Fin 3} {s p : Cell}
    (hE : b i j = Cell.E) (hs : s ≠ p) (hp : p ≠ Cell.E) :
    check_win (place b i j s) p = check_win b p := by
  have hcell := place_cell_eq_iff hE hs hp
  rw [Bool.eq_iff_iff]
  simp only [check_win, List.any_eq_true, decide_eq_true_eq]
  constructor
  · rintro ⟨t, ht, h1, h2, h3⟩
    have c3 : b t.2.2.1 t.2.2.2 = p := (hcell _ _).1 h3
    have c2 : b t.2.1.1 t.2.1.2 = p := (hcell _ _).1 (h2.trans h3)
    have c1 : b t.1.1 t.1.2 = p := (hcell _ _).1 (h1.trans (h2.trans h3))
    exact ⟨t, ht, by rw [c1, c2], by rw [c2, c3], c3⟩
  · rintro ⟨t, ht, h1, h2, h3⟩
    have c3 : place b i j s t.2.2.1 t.2.2.2 = p := (hcell _ _).2 h3
    have c2 : place b i j s t.2.1.1 t.2.1.2 = p := (hcell _ _).2 (h2.trans h3)
    have c1 : place b i j s t.1.1 t.1.2 = p := (hcell _ _).2 (h1.trans (h2.trans h3))
    exact ⟨t, ht, by rw [c1, c2], by rw [c2, c3], c3⟩

theorem reachable_not_both {t : ℕ} {b : Board} (h : Reachable t b) :
    ¬(check_win b Cell.X = true ∧ check_win b Cell.O = true) := by
  induction h with
  | init =>
    intro hc
    have hfalse : check_win emptyBoard Cell.X = false := by decide
    rw [hfalse] at hc
    exact Bool.false_ne_true hc.1
  | step t b i j hr hX hO hF hD hE ih =>
    intro hc
    by_cases hs : t % 2 = 0
    · have hsym : sym t = Cell.X := by simp [sym, hs]
      have hOeq : check_win (place b i j (sym t)) Cell.O = check_win b Cell.O := by
        rw [hsym]; exact check_win_place_other hE (by decide) (by decide)
      rw [hOeq, hO] at hc
      exact Bool.false_ne_true hc.2
    · have hsym : sym t = Cell.O := by simp [sym, hs]
      have hXeq : check_win (place b i j (sym t)) Cell.X = check_win b Cell.X := by
        rw [hsym]; exact check_win_place_other hE (by decide) (by decide)
      rw [hXeq, hX] at hc
      exact Bool.false_ne_true hc.1

theorem exFull_reachable : Reachable 9 exFull := by
  have h1 := Reachable.step 0 emptyBoard 0 0 Reachable.init
    (by decide) (by decide) (by decide) (by decide) (by decide)
  have h2 := Reachable.step 1 _ 1 0 h1
    (by decide) (by decide) (by decide) (by decide) (by decide)
  have h3 := Reachable.step 2 _ 0 1 h2
    (by decide) (by decide) (by decide) (by decide) (by decide)
  have h4 := Reachable.step 3 _ 1 1 h3
    (by decide) (by decide) (by decide) (by decide) (by decide)
  have h5 := Reachable.step 4 _ 2 1 h4
    (by decide) (by decide) (by decide) (by decide) (by decide)
  have h6 := Reachable.step 5 _ 2 0 h5
    (by decide) (by decide) (by decide) (by decide) (by decide)
  have h7 := Reachable.step 6 _ 1 2 h6
    (by decide) (by decide) (by decide) (by decide) (by decide)
  have h8 := Reachable.step 7 _ 2 2 h7
    (by decide) (by decide) (by decide) (by decide) (by decide)
  have h9 := Reachable.step 8 _ 0 2 h8
    (by decide) (by decide) (by decide) (by decide) (by decide)
  have heq : place (place (place (place (place (place (place (place (place
      emptyBoard 0 0 (sym 0)) 1 0 (sym 1)) 0 1 (sym 2)) 1 1 (sym 3)) 2 1 (sym 4))
      2 0 (sym 5)) 1 2 (sym 6)) 2 2 (sym 7)) 0 2 (sym 8) = exFull := by
    funext i j
    fin_cases i <;> fin_cases j <;> rfl
  exact heq ▸ h9

/-! ### Claim theorems -/

/-- Claim C1: for every board, depth and maximizing flag, minimax evaluated
with alpha-beta pruning from the full window (alpha = -infinity, beta =
+infinity) returns exactly the value of the unpruned minimax computed over all
legal moves with no cutoffs: pruning never changes the returned value. -/
theorem minimax_pruning_invariance (b : Board) (d : ℤ) (isMax : Bool) :
    minimax b d isMax ⊥ ⊤ = minimaxPlain b d isMax :=
  minimaxF_eq_plainF 10 b d isMax (emptyCount_lt_ten b)

/-- Claim C2 (amended): the terminal evaluation inside minimax returns
10 - depth when O has won (checked first), depth - 10 when X but not O has
won, and 0 when neither has won and the board is full; on reachable boards the
two win conditions are mutually exclusive, but a won reachable board can
simultaneously be full, so exactly-one-of-three fails in general. -/
theorem minimax_terminal_score (b : Board) (d : ℤ) (isMax : Bool) (a c : EInt) :
    (check_win b Cell.O = true → minimax b d isMax a c = toE (10 - d)) ∧
    (check_win b Cell.O = false → check_win b Cell.X = true →
      minimax b d isMax a c = toE (d - 10)) ∧
    (check_win b Cell.O = false → check_win b Cell.X = false → board_full b = true →
      minimax b d isMax a c = toE 0) ∧
    (∀ (t : ℕ) (b2 : Board), Reachable t b2 →
      ¬(check_win b2 Cell.X = true ∧ check_win b2 Cell.O = true)) := by
  refine ⟨?_, ?_, ?_, fun t b2 h => reachable_not_both h⟩
  · intro hO
    show minimaxF (9 + 1) b d isMax a c = toE (10 - d)
    simp only [minimaxF, if_pos hO]
  · intro hO hX
    show minimaxF (9 + 1) b d isMax a c = toE (d - 10)
    have hO2 : ¬(check_win b Cell.O = true) := by simp [hO]
    simp only [minimaxF, if_neg hO2, if_pos hX]
  · intro hO hX hF
    show minimaxF (9 + 1) b d isMax a c = toE 0
    have hO2 : ¬(check_win b Cell.O = true) := by simp [hO]
    have hX2 : ¬(check_win b Cell.X = true) := by simp [hX]
    simp only [minimaxF, if_neg hO2, if_neg hX2, if_pos hF]

/-- Claim C2 counterexample: exFull is reachable in a real game (X fills the
board with the ninth move and wins at the same time) and satisfies two of the
three terminal conditions at once, X has won and the board is full, so
exactly one of these three conditions does not hold. -/
theorem terminal_conditions_not_exclusive :
    (∃ t, Reachable t exFull) ∧
    check_win exFull Cell.X = true ∧ board_full exFull = true ∧
    ¬((check_win exFull Cell.O = true ∧ check_win exFull Cell.X = false ∧
        board_full exFull = false) ∨
      (check_win exFull Cell.O = false ∧ check_win exFull Cell.X = true ∧
        board_full exFull = false) ∨
      (check_win exFull Cell.O = false ∧ check_win exFull Cell.X = false ∧
        board_full exFull = true)) :=
  ⟨⟨9, exFull_reachable⟩, by decide, by decide, by decide⟩

/-- Claim C2 witness: the amended theorem at concrete inputs. -/
theorem minimax_terminal_score_witness :
    minimax exFull 3 true ⊥ ⊤ = toE (3 - 10) ∧
    ¬(check_win exFull Cell.X = true ∧ check_win exFull Cell.O = true) :=
  ⟨(minimax_terminal_score exFull 3 true ⊥ ⊤).2.1 (by decide) (by decide),
    (minimax_terminal_score exFull 3 true ⊥ ⊤).2.2.2 9 exFull exFull_reachable⟩

/-- Claim C3: minimax and best_move leave the board they are given exactly
equal to its pre-call state when they return (every trial placement is
retracted), so calling best_move twice on the same board yields the same
result and the same board state. -/
theorem search_preserves_board (fuel : ℕ) (b : Board) (d : ℤ) (isMax : Bool) (a c : EInt) :
    (minimaxS fuel b d isMax a c).2 = b ∧ (best_moveS b).2 = b ∧
    best_moveS (best_moveS b).2 = best_moveS b := by
  refine ⟨?_, ?_, ?_⟩
  · rw [minimaxS_eq]
  · rw [best_moveS_eq]
  · simp only [best_moveS_eq]

/-- Claim C4: the legal-move enumeration used by minimax and best_move
produces exactly the set of Empty cells, each exactly once, as a subsequence
of the fixed priority order (1,1), (0,0), (0,2), (2,0), (2,2), (0,1), (1,0),
(1,2), (2,1), so the relative order of that list is preserved after
filtering. -/
theorem legalMoves_enumeration (b : Board) :
    (∀ m : Move, m ∈ legalMoves b ↔ b m.1 m.2 = Cell.E) ∧
    (legalMoves b).Nodup ∧
    List.Sublist (legalMoves b)
      [(1, 1), (0, 0), (0, 2), (2, 0), (2, 2), (0, 1), (1, 0), (1, 2), (2, 1)] :=
  ⟨fun _ => mem_legalMoves, legalMoves_nodup b, List.filter_sublist _⟩

/-- Claim C4 witness. -/
theorem legalMoves_enumeration_witness :
    ((1 : Fin 3), (1 : Fin 3)) ∈ legalMoves emptyBoard :=
  ((legalMoves_enumeration emptyBoard).1 _).2 rfl

/-- Claim C5: best_move returns None exactly when the board has no Empty
cell; when it returns a move, that move splits the prioritized legal-move list
so that every earlier move has a strictly smaller trial value and every later
move no greater a value: the first-seen move of strictly greatest minimax
value wins, each move trialed as the maximizing symbol O. -/
theorem best_move_selection (b : Board) :
    (best_move b = none ↔ ∀ i j : Fin 3, b i j ≠ Cell.E) ∧
    (∀ m : Move, best_move b = some m →
      ∃ l1 l2, legalMoves b = l1 ++ m :: l2 ∧
        (∀ x ∈ l1, trialValue b x < trialValue b m) ∧
        (∀ x ∈ l2, trialValue b x ≤ trialValue b m)) := by
  constructor
  · rw [best_move, bmLoop_eq_none]
    constructor
    · intro h i j hE
      have hm : (i, j) ∈ legalMoves b := mem_legalMoves.2 hE
      obtain ⟨n, hn⟩ := trialValue_finite b (i, j)
      have h2 := h.2 (i, j) hm
      rw [hn] at h2
      exact toE_ne_bot n (le_bot_iff.1 h2)
    · intro h
      refine ⟨rfl, fun m hm => ?_⟩
      exact absurd (mem_legalMoves.1 hm) (h m.1 m.2)
  · intro m hsome
    have hsome2 : bmLoop (trialValue b) (legalMoves b) ⊥ none = some m := hsome
    rcases bmLoop_some_spec (trialValue b) (legalMoves b) ⊥ none m hsome2 with
      ⟨h1, _⟩ | ⟨l1, l2, heq, _, ha, hb⟩
    · exact Option.noConfusion h1
    · exact ⟨l1, l2, heq, ha, hb⟩

/-- Claim C5 witness. -/
theorem best_move_selection_witness : best_move exFull = none :=
  (best_move_selection exFull).1.2 (by decide)

/-- Claim C6 (code bug): on a board with no legal moves ai_move never returns
a None result: the random branch and the search-fallback branch both evaluate
random.choice on an empty list, which raises IndexError (modelled as an error
value).  Shown on the concrete full board with an empty book: the draw r = 0
takes the random gate, and r = 1/2 falls through the book miss and the None
from best_move into the empty random.choice. -/
theorem ai_move_no_moves_raises :
    ai_move AI_RANDOMNESS 0 0 [] best_move exFull = Except.error () ∧
    ai_move AI_RANDOMNESS (1 / 2) 0 [] best_move exFull = Except.error () := by
  constructor
  · have h : (0 : ℚ) < AI_RANDOMNESS := by norm_num [AI_RANDOMNESS]
    rw [ai_move, if_pos h]; rfl
  · have h : ¬((1 / 2 : ℚ) < AI_RANDOMNESS) := by norm_num [AI_RANDOMNESS]
    rw [ai_move, if_neg h]; rfl

/-- Claim C7 (amended): whenever O has an immediate winning move, best_move
returns a move whose placement makes O win, and the winning move's trial
evaluation is toE 10: best_move evaluates every trial board at depth 0, so a
one-move win scores 10 - 0 = 10, not 10 - (depth + 1). -/
theorem best_move_takes_immediate_win (b : Board)
    (h : ∃ w : Move, b w.1 w.2 = Cell.E ∧
      check_win (place b w.1 w.2 Cell.O) Cell.O = true) :
    ∃ m : Move, best_move b = some m ∧
      check_win (place b m.1 m.2 Cell.O) Cell.O = true ∧ trialValue b m = toE 10 := by
  obtain ⟨w, hwE, hwWin⟩ := h
  have hwMem : w ∈ legalMoves b := mem_legalMoves.2 hwE
  have hwVal : trialValue b w = toE 10 := trialValue_win hwWin
  cases hbm : best_move b with
  | none =>
    rw [best_move, bmLoop_eq_none] at hbm
    have h2 := hbm.2 w hwMem
    rw [hwVal] at h2
    exact absurd (le_bot_iff.1 h2) (toE_ne_bot 10)
  | some m =>
    have hbm2 : bmLoop (trialValue b) (legalMoves b) ⊥ none = some m := hbm
    rcases bmLoop_some_spec (trialValue b) (legalMoves b) ⊥ none m hbm2 with
      ⟨h1, _⟩ | ⟨l1, l2, heq, _, hlt, hle⟩
    · exact Option.noConfusion h1
    · have hvm10 : trialValue b m = toE 10 := by
        have hw2 : w ∈ l1 ++ m :: l2 := heq ▸ hwMem
        rcases List.mem_append.1 hw2 with hw3 | hw3
        · have h3 := hlt w hw3
          rw [hwVal] at h3
          exact absurd (lt_of_le_of_lt (trialValue_le_ten b m) h3) (lt_irrefl _)
        · rcases List.mem_cons.1 hw3 with hw4 | hw4
          · rw [← hw4]; exact hwVal
          · have h3 := hle w hw4
            rw [hwVal] at h3
            exact le_antisymm (trialValue_le_ten b m) h3
      have hwin : check_win (place b m.1 m.2 Cell.O) Cell.O = true := by
        cases hcw : check_win (place b m.1 m.2 Cell.O) Cell.O with
        | true => rfl
        | false =>
          have h3 := trialValue_not_win hcw
          rw [hvm10] at h3
          exact absurd (toE_le_toE.1 h3) (by omega)
      exact ⟨m, rfl, hwin, hvm10⟩

/-- Claim C7 counterexample: on exW the winning move (0, 2) is returned and
its evaluation is toE 10, not toE (10 - (0 + 1)) = toE 9, the value the
claim's formula gives with the root depth 0. -/
theorem best_move_win_value_not_depth_formula :
    best_move exW = some (0, 2) ∧ trialValue exW (0, 2) = toE 10 ∧
    toE 10 ≠ toE (10 - (0 + 1)) :=
  ⟨by decide, by decide, by decide⟩

/-- Claim C7 witness: the amended theorem at the concrete board exW. -/
theorem best_move_takes_immediate_win_witness :
    ∃ m : Move, best_move exW = some m ∧
      check_win (place exW m.1 m.2 Cell.O) Cell.O = true ∧ trialValue exW m = toE 10 :=
  best_move_takes_immediate_win exW ⟨(0, 2), by decide, by decide⟩

/-- Claim C8: with random_override_probability 0 and a nonnegative draw the
random gate is never taken, so a board whose canonical key is in the book
yields exactly the decoded move (idx / 3, idx % 3) for the stored index,
whatever the search function is (the search is not invoked), and on a key
miss the lookup yields no move and the chain falls through to the search. -/
theorem ai_move_book_hit (r : ℚ) (k : ℕ) (book : List (List Char × ℕ))
    (search : Board → Option Move) (b : Board) :
    (0 ≤ r → ∀ idx : ℕ, bookLookup book (boardKey b) = some idx →
      ai_move 0 r k book search b = Except.ok (idx / 3, idx % 3)) ∧
    (0 ≤ r → bookLookup book (boardKey b) = none → ∀ m : Move, search b = some m →
      ai_move 0 r k book search b = Except.ok (m.1.val, m.2.val)) := by
  constructor
  · intro hr idx hidx
    rw [ai_move, if_neg (not_lt.2 hr), hidx]
  · intro hr hmiss m hm
    rw [ai_move, if_neg (not_lt.2 hr), hmiss, hm]

/-- Claim C8 witness: a concrete book hit decodes index 4 to (1, 1) with a
search that would return nothing. -/
theorem ai_move_book_hit_witness :
    ai_move 0 0 0 [(boardKey emptyBoard, 4)] (fun _ => none) emptyBoard =
      Except.ok (1, 1) :=
  (ai_move_book_hit 0 0 [(boardKey emptyBoard, 4)] (fun _ => none) emptyBoard).1
    le_rfl 4 (by decide)

/-- Claim C9 counterexample: load_opening_book propagates a JSON decode error
to its caller instead of degrading to an empty table. -/
theorem load_opening_book_propagates :
    load_opening_book LoadOutcome.jsonDecodeError =
      Except.error PyError.jsonDecodeError :=
  rfl

/-- Claim C9 (amended): the module-level BOOK load never propagates an error,
a missing or unparsable resource yields the empty table with the diagnostic
printed once, while the helper load_opening_book only handles the missing
file: an unparsable resource propagates the JSON decode error. -/
theorem book_loading_behaviour :
    (∀ o : LoadOutcome, ∃ t w, loadBOOK o = Except.ok (t, w)) ∧
    loadBOOK LoadOutcome.fileNotFound = Except.ok ([], true) ∧
    loadBOOK LoadOutcome.jsonDecodeError = Except.ok ([], true) ∧
    load_opening_book LoadOutcome.fileNotFound = Except.ok ([], true) ∧
    load_opening_book LoadOutcome.jsonDecodeError =
      Except.error PyError.jsonDecodeError := by
  refine ⟨fun o => ?_, rfl, rfl, rfl, rfl⟩
  cases o with
  | ok t => exact ⟨t, false, rfl⟩
  | fileNotFound => exact ⟨[], true, rfl⟩
  | jsonDecodeError => exact ⟨[], true, rfl⟩

/-- Claim C10: a dead board, one where every line contains both X and O, is
never simultaneously a won board: check_win is false for both players. -/
theorem dead_board_not_won (b : Board) (h : no_possible_win b = true) :
    check_win b Cell.X = false ∧ check_win b Cell.O = false := by
  simp only [no_possible_win, List.all_eq_true, Bool.and_eq_true, decide_eq_true_eq] at h
  constructor
  · cases hcw : check_win b Cell.X with
    | false => rfl
    | true =>
      exfalso
      simp only [check_win, List.any_eq_true, decide_eq_true_eq] at hcw
      obtain ⟨t, ht, h1, h2, h3⟩ := hcw
      obtain ⟨hX, hO⟩ := h t ht
      have c3 := h3
      have c2 := h2.trans h3
      have c1 := h1.trans c2
      rw [c1, c2, c3] at hO
      exact absurd hO (by decide)
  · cases hcw : check_win b Cell.O with
    | false => rfl
    | true =>
      exfalso
      simp only [check_win, List.any_eq_true, decide_eq_true_eq] at hcw
      obtain ⟨t, ht, h1, h2, h3⟩ := hcw
      obtain ⟨hX, hO⟩ := h t ht
      have c3 := h3
      have c2 := h2.trans h3
      have c1 := h1.trans c2
      rw [c1, c2, c3] at hX
      exact absurd hX (by decide)

/-- Claim C10 witness: the concrete dead board. -/
theorem dead_board_not_won_witness :
    check_win exDead Cell.X = false ∧ check_win exDead Cell.O = false :=
  dead_board_not_won exDead (by decide)
